import Mathlib

/-!
Verification of the github-recap data pipeline.

Shallow embedding of the statistics engine (`statisticsCalculator`), the
message analyzer (`messageAnalyzer`), the commit fetcher (`fetchCommits`),
the batched collector (`dataCollector`) and the cache manager
(`cacheManager`).

Modelling conventions:
* A commit's `date` field (an ISO 8601 timestamp in the source) is
  represented by the epoch-day index of its local calendar day: every use
  of the field in the verified code first truncates the timestamp to a
  calendar day (`startOfDay` + `format 'yyyy-MM-dd'`) or takes its weekday,
  both of which factor through the calendar day.  Lexicographic order on
  `yyyy-MM-dd` strings agrees with numeric order on epoch days.
* JavaScript objects used as counters are modelled by association lists in
  insertion order (string keys that are not array indices enumerate in
  insertion order, and the keys used here — repository full names with a
  `/`, filtered message words of length ≥ 3 appearing in practice — are of
  that kind), or by total functions when the key set is fixed.
* `Array.prototype.sort` is stable (ECMAScript 2019); it is modelled by
  `List.insertionSort`, which inserts earlier elements before later
  elements that compare equal, hence is stable as well.
* Floating-point arithmetic on percentages and ages is modelled by exact
  rational arithmetic; `Math.round` is `fun q => Int.floor (q + 1/2)`.
-/

/-- A simplified commit record as produced by `fetchCommitsForRepo`:
`{ sha, message, date, repo }`.  The `date` is the epoch-day index of the
commit's local calendar day (see the module conventions above). -/
structure Commit where
  sha : String
  message : String
  date : Nat
  repo : String
deriving DecidableEq

/-- A repository as consumed by the collector; only `full_name` is read by
the code under verification. -/
structure Repo where
  full_name : String
deriving DecidableEq

/-- Epoch-day index of a civil calendar date (days since 1970-01-01,
Gregorian).  Used only to name concrete dates such as 2024-01-01 in
claims; valid for years ≥ 1970, which covers every date in the claims. -/
def daysFromCivil (y m d : Nat) : Nat :=
  let yy := if m ≤ 2 then y - 1 else y
  let era := yy / 400
  let yoe := yy % 400
  let mp := if 2 < m then m - 3 else m + 9
  let doy := (153 * mp + 2) / 5 + (d - 1)
  let doe := yoe * 365 + yoe / 4 - yoe / 100 + doy
  era * 146097 + doe - 719468

/-- JavaScript `getDay` (0 = Sunday … 6 = Saturday) of an epoch day:
day 0 (1970-01-01) was a Thursday (index 4). -/
def jsWeekdayIndex (epochDay : Nat) : Nat := (epochDay + 4) % 7

/-- `dayNames` from `getCommitsByDayOfWeek`, indexed by `getDay`. -/
def dayNames : List String :=
  ["Sunday", "Monday", "Tuesday", "Wednesday", "Thursday", "Friday", "Saturday"]

/-- `orderedDays` from `getCommitsByDayOfWeek`: Monday first, Sunday last. -/
def orderedDays : List String :=
  ["Monday", "Tuesday", "Wednesday", "Thursday", "Friday", "Saturday", "Sunday"]

/-- `dayNames[getDay(parseISO(commit.date))]`; the index is `< 7`, so the
default value of `getD` is never used. -/
def weekdayName (epochDay : Nat) : String :=
  dayNames.getD (jsWeekdayIndex epochDay) ""

/-- `getCommitsByDayOfWeek` (statisticsCalculator): zero-initialises a
counter for each of the seven day names, counts commits by weekday name,
and lists the counters Monday…Sunday.  Returns `[]` when `commits` is
empty.  The counter object has a fixed key set, so it is modelled by a
total function `String → Nat`. -/
def getCommitsByDayOfWeek (commits : List Commit) : List (String × Nat) :=
  if commits.length = 0 then []
  else
    let init : String → Nat := fun _ => 0
    let dayCounts : String → Nat :=
      commits.foldl
        (fun acc c => fun name =>
          if name = weekdayName c.date then acc name + 1 else acc name)
        init
    orderedDays.map (fun day => (day, dayCounts day))

/-- Result record of `calculateLongestStreak`:
`{ days, startDate, endDate }` (dates as epoch days). -/
structure Streak where
  days : Nat
  startDate : Nat
  endDate : Nat
deriving DecidableEq

/-- Loop state of `calculateLongestStreak`'s scan (step 3 of the source). -/
structure StreakAcc where
  longestStreak : Nat
  currentStreak : Nat
  streakStart : Nat
  longestStreakStart : Nat
  longestStreakEnd : Nat
deriving DecidableEq

/-- One iteration of the `for (let i = 1; ...)` loop of
`calculateLongestStreak`: `prev`/`cur` are `sortedDates[i-1]`/
`sortedDates[i]`; `daysDiff` is the whole-day delta (the source divides a
millisecond delta of day-aligned timestamps by 86400000; on epoch days
this is integer subtraction). -/
def streakStep (acc : StreakAcc) (prev cur : Nat) : StreakAcc :=
  if (cur : Int) - (prev : Int) = 1 then
    let c := acc.currentStreak + 1
    if acc.longestStreak < c then
      { acc with
          longestStreak := c
          currentStreak := c
          longestStreakStart := acc.streakStart
          longestStreakEnd := cur }
    else { acc with currentStreak := c }
  else { acc with currentStreak := 1, streakStart := cur }

/-- The scan over `sortedDates[1..]`, carrying the previous date. -/
def streakLoop (acc : StreakAcc) (prev : Nat) : List Nat → StreakAcc
  | [] => acc
  | cur :: rest => streakLoop (streakStep acc prev cur) cur rest

/-- `calculateLongestStreak` after the sorted unique date list has been
computed: the single-day early return, then the scan initialised with
`longestStreak = currentStreak = 1` and all anchors at `sortedDates[0]`.
The `[]` case cannot arise from a non-empty commit list. -/
def streakFromSorted : List Nat → Option Streak
  | [] => none
  | [d] => some ⟨1, d, d⟩
  | d0 :: d1 :: rest =>
    let final := streakLoop ⟨1, 1, d0, d0, d0⟩ d0 (d1 :: rest)
    some ⟨final.longestStreak, final.longestStreakStart, final.longestStreakEnd⟩

/-- Step 1–2 of `calculateLongestStreak`: the set of distinct commit days,
sorted ascending.  The source collects a `Set` (insertion order) and then
sorts the `yyyy-MM-dd` strings; dedup order is irrelevant after sorting,
and lexicographic string order is numeric epoch-day order. -/
def uniqueSortedDates (commits : List Commit) : List Nat :=
  ((commits.map Commit.date).dedup).insertionSort (· ≤ ·)

/-- `calculateLongestStreak` (statisticsCalculator). -/
def calculateLongestStreak (commits : List Commit) : Option Streak :=
  if commits.length = 0 then none
  else streakFromSorted (uniqueSortedDates commits)

/-- The `STOPWORDS` set of the message analyzer. -/
def STOPWORDS : List String :=
  ["the", "a", "an", "and", "or", "but", "in", "on", "at", "to", "for",
   "of", "with", "by", "from", "as", "is", "was", "are", "were", "be",
   "been", "being", "have", "has", "had", "do", "does", "did", "will",
   "would", "should", "could", "may", "might", "can", "this", "that",
   "these", "those", "i", "you", "he", "she", "it", "we", "they"]

/-- A character matched by the regex class `\w` (ASCII word character). -/
def isWordChar (c : Char) : Bool := c.isAlphanum || c = '_'

/-- One character of `message.toLowerCase().replace(/[^\w\s]/g, ' ')`:
word characters and whitespace survive, everything else becomes a space. -/
def cleanChar (c : Char) : Char :=
  if isWordChar c || c.isWhitespace then c else ' '

/-- `message.toLowerCase().replace(/[^\w\s]/g, ' ')` over the characters of
the message (ASCII lowering, which is what `\w`-relevant characters get). -/
def cleanMessage (message : String) : List Char :=
  message.data.map (fun c => cleanChar c.toLower)

/-- `cleaned.split(/\s+/).filter(w => w.length > 0)`: split on whitespace
runs and drop empty pieces (which also subsumes the source's `trim`).
`acc` holds the characters of the current word, reversed. -/
def wsSplit : List Char → List Char → List String
  | [], acc => if acc.isEmpty then [] else [String.mk acc.reverse]
  | c :: rest, acc =>
    if c.isWhitespace then
      if acc.isEmpty then wsSplit rest []
      else String.mk acc.reverse :: wsSplit rest []
    else wsSplit rest (c :: acc)

/-- `extractWords` (messageAnalyzer): lowercase, replace non-word
non-whitespace characters by spaces, split on whitespace, drop empties. -/
def extractWords (message : String) : List String :=
  wsSplit (cleanMessage message) []

/-- The part of `/^v?\d+\.\d+(\.\d+)?$/` after the optional `v`:
one or more digits, a dot, one or more digits, optionally a second dot and
one or more digits, then end of string.  `\d+` before `.` or end is
greedy-deterministic, so `takeWhile`/`dropWhile` parse it exactly. -/
def isVersionCore (l : List Char) : Bool :=
  let d1 := l.takeWhile Char.isDigit
  let r1 := l.dropWhile Char.isDigit
  !d1.isEmpty &&
    match r1 with
    | '.' :: r2 =>
      let d2 := r2.takeWhile Char.isDigit
      let r3 := r2.dropWhile Char.isDigit
      !d2.isEmpty &&
        (r3.isEmpty ||
          match r3 with
          | '.' :: r4 =>
            let d3 := r4.takeWhile Char.isDigit
            let r5 := r4.dropWhile Char.isDigit
            !d3.isEmpty && r5.isEmpty
          | _ => false)
    | _ => false

/-- `isVersionNumber` (messageAnalyzer): `/^v?\d+\.\d+(\.\d+)?$/.test word`.
If the word starts with `v` only the `v`-consuming alternative can match
(a `v` is not a digit). -/
def isVersionNumber (word : String) : Bool :=
  match word.data with
  | 'v' :: rest => isVersionCore rest
  | l => isVersionCore l

/-- One step of a JavaScript object counter
`counts[key] = (counts[key] || 0) + 1`, modelled on an association list in
key-insertion order: increment an existing key in place, else append the
key with count 1. -/
def bump (acc : List (String × Nat)) (key : String) : List (String × Nat) :=
  if acc.any (fun p => p.1 = key) then
    acc.map (fun p => if p.1 = key then (p.1, p.2 + 1) else p)
  else acc ++ [(key, 1)]

/-- The filter of `getTopWords`: not a stopword, at least 3 characters,
not a version number. -/
def topWordOk (w : String) : Bool :=
  !STOPWORDS.contains w && decide (3 ≤ w.length) && !isVersionNumber w

/-- The `wordCounts` object of `getTopWords` after processing all
messages. -/
def wordCounts (commits : List Commit) : List (String × Nat) :=
  commits.foldl
    (fun acc c =>
      (extractWords c.message).foldl
        (fun acc2 w => if topWordOk w then bump acc2 w else acc2) acc)
    []

/-- The descending-count comparison used by
`.sort((a, b) => b.count - a.count)` on `{word, count}` pairs. -/
def countDescPair (a b : String × Nat) : Prop := b.2 ≤ a.2

instance : DecidableRel countDescPair := fun a b => Nat.decLe b.2 a.2

instance : IsTotal (String × Nat) countDescPair :=
  ⟨fun a b => Or.symm (Nat.le_total a.2 b.2)⟩

instance : IsTrans (String × Nat) countDescPair :=
  ⟨fun _ _ _ h1 h2 => Nat.le_trans h2 h1⟩

/-- `getTopWords` (messageAnalyzer): count surviving words over all
messages, sort by count descending (stable), truncate to `limit`. -/
def getTopWords (commits : List Commit) (limit : Nat) : List (String × Nat) :=
  if commits.length = 0 then []
  else ((wordCounts commits).insertionSort countDescPair).take limit

/-- The filter of `getTopWords` with the `isVersionNumber` test removed
(for the refinement claim that the test is inert). -/
def topWordOkNoVersion (w : String) : Bool :=
  !STOPWORDS.contains w && decide (3 ≤ w.length)

/-- `wordCounts` with the version-number filter removed. -/
def wordCountsNoVersion (commits : List Commit) : List (String × Nat) :=
  commits.foldl
    (fun acc c =>
      (extractWords c.message).foldl
        (fun acc2 w => if topWordOkNoVersion w then bump acc2 w else acc2) acc)
    []

/-- `getTopWords` with the version-number filter removed. -/
def getTopWordsNoVersion (commits : List Commit) (limit : Nat) :
    List (String × Nat) :=
  if commits.length = 0 then []
  else ((wordCountsNoVersion commits).insertionSort countDescPair).take limit

/-- `Math.round(q * 10) / 10` on exact rationals: JavaScript `Math.round`
rounds half toward positive infinity, i.e. `Int.floor (x + 1/2)`. -/
def roundTo1 (q : ℚ) : ℚ := ((Int.floor (q * 10 + 1 / 2) : ℤ) : ℚ) / 10

/-- An entry of `getTopRepositories`' result:
`{ repo, count, percentage }`. -/
structure RepoStat where
  repo : String
  count : Nat
  percentage : ℚ
deriving DecidableEq

/-- The descending-count comparison `.sort((a, b) => b.count - a.count)`
on `RepoStat` entries. -/
def countDescStat (a b : RepoStat) : Prop := b.count ≤ a.count

instance : DecidableRel countDescStat := fun a b => Nat.decLe b.count a.count

instance : IsTotal RepoStat countDescStat :=
  ⟨fun a b => Or.symm (Nat.le_total a.count b.count)⟩

instance : IsTrans RepoStat countDescStat :=
  ⟨fun _ _ _ h1 h2 => Nat.le_trans h2 h1⟩

/-- The `repoCounts` object of `getTopRepositories`: commits counted per
`commit.repo`, keys in first-appearance order. -/
def repoCounts (commits : List Commit) : List (String × Nat) :=
  commits.foldl (fun acc c => bump acc c.repo) []

/-- `getTopRepositories` (statisticsCalculator): group by repository name,
attach the raw percentage `count / commits.length * 100`, sort by count
descending (stable), truncate to `limit`, then round each percentage to
one decimal place. -/
def getTopRepositories (commits : List Commit) (limit : Nat) : List RepoStat :=
  if commits.length = 0 then []
  else
    let total : ℚ := commits.length
    let mapped := (repoCounts commits).map
      (fun p => RepoStat.mk p.1 p.2 ((p.2 : ℚ) / total * 100))
    let repos := (mapped.insertionSort countDescStat).take limit
    repos.map (fun s => { s with percentage := roundTo1 s.percentage })

/-- A commit as returned by the GitHub API before simplification; only the
fields read by `fetchCommitsForRepo` are modelled (`commit.sha`,
`commit.commit.message`, `commit.commit.author.date`). -/
structure RawCommit where
  sha : String
  message : String
  author_date : Nat
deriving DecidableEq

/-- The outcome of the paginated GitHub API call made by
`fetchCommitsForRepo`: either the full commit list, or a rejection
carrying an HTTP status (absent for non-HTTP failures) and a message. -/
inductive ApiResult where
  | success (commits : List RawCommit)
  | failure (status : Option Nat) (msg : String)
deriving DecidableEq

/-- What `fetchCommitsForRepo` does as seen by its caller: resolves with a
commit list (`warned` records whether the generic warning was printed), or
rejects with an error message. -/
inductive FetchResult where
  | ok (commits : List Commit) (warned : Bool)
  | fatal (msg : String)
deriving DecidableEq

/-- JavaScript `String.prototype.split` with a one-character separator:
pieces between separators, empty pieces kept.  Always non-empty. -/
def splitOn (sep : Char) : List Char → List (List Char)
  | [] => [[]]
  | c :: rest =>
    if c = sep then [] :: splitOn sep rest
    else
      match splitOn sep rest with
      | [] => [[c]]
      | piece :: pieces => (c :: piece) :: pieces

/-- The validation `const [owner, repo] = repoFullName.split('/');
if (!owner || !repo) throw ...`: both of the first two `/`-separated
pieces must exist and be non-empty (extra pieces are ignored). -/
def validRepoName (repoFullName : String) : Bool :=
  match splitOn '/' repoFullName.data with
  | owner :: repo :: _ => !(owner.isEmpty || repo.isEmpty)
  | _ => false

/-- The message of the validation error thrown for a malformed
repository name. -/
def invalidNameMessage (repoFullName : String) : String :=
  "Invalid repository name format: " ++ repoFullName

/-- The message of the fatal rate-limit error (429). -/
def rateLimitMessage : String :=
  "GitHub API rate limit exceeded! Please wait a few minutes and try again."

/-- The `error.message.includes('Invalid repository name')` re-throw test
in the catch block of `fetchCommitsForRepo`. -/
def mentionsInvalidName (msg : String) : Bool :=
  decide (List.IsInfix "Invalid repository name".data msg.data)

/-- The simplification of an API commit object:
`{ sha, message, date, repo: repoFullName }`. -/
def simplifyCommit (repoFullName : String) (r : RawCommit) : Commit :=
  ⟨r.sha, r.message, r.author_date, repoFullName⟩

/-- `fetchCommitsForRepo` (fetchCommits) for a given API outcome.  A
malformed name throws before the API is consulted (the thrown validation
error has no `status`, so the catch block re-throws it via the message
test).  For API rejections: 404/409/403 resolve with `[]`; 429 throws the
rate-limit error; a message mentioning the validation text is re-thrown;
anything else warns and resolves with `[]`.  The `year` argument only
shapes the `since`/`until` request window, which lives inside `api`. -/
def fetchCommitsForRepo (repoFullName : String) (year : Nat)
    (api : ApiResult) : FetchResult :=
  if !validRepoName repoFullName then
    .fatal (invalidNameMessage repoFullName)
  else
    match api with
    | .success raws => .ok (raws.map (simplifyCommit repoFullName)) false
    | .failure status msg =>
      if status = some 404 || status = some 409 || status = some 403 then
        .ok [] false
      else if status = some 429 then .fatal rateLimitMessage
      else if mentionsInvalidName msg then .fatal msg
      else .ok [] true

/-- `repos.slice(i, i + b)`-style chunking where each chunk is the head
plus `b` further elements, so `chunk (b - 1)` partitions into chunks of
size `b`. -/
def chunk (b : Nat) : List α → List (List α)
  | [] => []
  | x :: xs => (x :: xs.take b) :: chunk b (xs.drop b)
  termination_by l => l.length
  decreasing_by
    simp only [List.length_cons, List.length_drop]
    omega

/-- The batch partition of `collectAllCommits`:
`for (let i = 0; i < repos.length; i += BATCH_SIZE)
   batches.push(repos.slice(i, i + BATCH_SIZE))`.
Only reached with `batchSize ≥ 1` (see `collectAllCommits`). -/
def makeBatches (batchSize : Nat) (repos : List α) : List (List α) :=
  chunk (batchSize - 1) repos

/-- The per-repository `.catch` in a batch: a rejected fetch contributes
`[]` (plus a console warning), a resolved one its commit list. -/
def caughtCommits : FetchResult → List Commit
  | .ok commits _ => commits
  | .fatal _ => []

/-- The fresh-fetch core of `collectAllCommits` (dataCollector): partition
`repos` into consecutive batches of `BATCH_SIZE = options.batchSize || 5`,
fetch each batch's repositories concurrently (`Promise.all` keeps batch
order), convert each rejection to `[]`, and concatenate everything in
order.  The cache-hit early return, the cache write and the progress UI
sit outside this core and do not alter the returned list. -/
def collectAllCommits (repos : List Repo) (batchSize : Nat)
    (fetch : Repo → FetchResult) : List Commit :=
  if repos.length = 0 then []
  else
    let size := if batchSize = 0 then 5 else batchSize
    let batches := makeBatches size repos
    (batches.map (fun batch =>
      (batch.map (fun r => caughtCommits (fetch r))).flatten)).flatten

/-- The JSON object written by `saveToCache`:
`{ username, year, fetchedAt, repos, commits }` (`fetchedAt` in epoch
milliseconds; `none` models a file that lacks the field). -/
structure CacheData where
  username : String
  year : Nat
  fetchedAt : Option Int
  repos : List Repo
  commits : List Commit
deriving DecidableEq

/-- The state of the cache file for one `(username, year)` key: absent,
present but unreadable/unparseable, or parsed JSON. -/
inductive CacheFile where
  | missing
  | unreadable
  | parsed (data : CacheData)
deriving DecidableEq

/-- The cache directory, keyed by `(username, year)` — one file per key
(`github-data-username-year.json`). -/
def CacheStore := String → Nat → CacheFile

/-- `CollectionResult`: the `{ repos, commits }` payload handed to
`saveToCache` and returned by `loadFromCache`.  Both fields are arrays
(the well-formedness in the round-trip claim); `x || []` is the identity
on arrays, empty ones included, so the defaults in the source do not
show up here. -/
structure CollectionResult where
  repos : List Repo
  commits : List Commit
deriving DecidableEq

/-- `isCacheValid` (cacheManager): `{ valid, age }` (the `path` field of
the source is a pure function of the key and is omitted).  A missing or
unreadable file, or a falsy `fetchedAt` (absent, or the number 0), is
invalid with `age = null`; otherwise
`age = (now - fetchedAt) / 3600000` hours and
`valid = age < maxAgeHours` (strict). -/
def isCacheValid (file : CacheFile) (now : Int) (maxAgeHours : ℚ) :
    Bool × Option ℚ :=
  match file with
  | .missing => (false, none)
  | .unreadable => (false, none)
  | .parsed data =>
    match data.fetchedAt with
    | none => (false, none)
    | some t =>
      if t = 0 then (false, none)
      else
        let ageHours : ℚ := ((now - t : ℤ) : ℚ) / (1000 * 60 * 60)
        (decide (ageHours < maxAgeHours), some ageHours)

/-- `saveToCache` (cacheManager): writes
`{ username, year, fetchedAt: Date.now(), repos, commits }` to the file
for `(username, year)` and leaves every other file unchanged.  JSON
serialization of these records is faithful, so the written file is
modelled as the parsed record itself. -/
def saveToCache (store : CacheStore) (username : String) (year : Nat)
    (now : Int) (data : CollectionResult) : CacheStore :=
  fun u y =>
    if u = username ∧ y = year then
      .parsed ⟨username, year, some now, data.repos, data.commits⟩
    else store u y

/-- `loadFromCache` (cacheManager): `null` for a missing file; for an
unreadable file it deletes the file and returns `null` (the deletion
touches only the returned store's own key and is irrelevant to the
round-trip claim, so only the returned value is modelled); otherwise
`{ repos: data.repos || [], commits: data.commits || [] }` — the fields
are always arrays in a file written by `saveToCache`. -/
def loadFromCache (store : CacheStore) (username : String) (year : Nat) :
    Option CollectionResult :=
  match store username year with
  | .missing => none
  | .unreadable => none
  | .parsed data => some ⟨data.repos, data.commits⟩

/-- First-occurrence deduplication: the key enumeration order of a
JavaScript object counter (each key listed at its first appearance).
Used only to reason about `bump`-built association lists. -/
def dedupFirst {α : Type} [DecidableEq α] : List α → List α
  | [] => []
  | x :: xs => x :: dedupFirst (xs.filter (fun y => y ≠ x))
  termination_by l => l.length
  decreasing_by
    simp only [List.length_cons]
    exact Nat.lt_succ_of_le (List.length_filter_le _ _)

/-- The counter object built by folding `bump` over the repository names
of `p`: keys in first-appearance order, values the commit counts. -/
def repoCountsState (p : List Commit) : List (String × Nat) :=
  (dedupFirst (p.map Commit.repo)).map
    (fun r => (r, p.countP (fun c => decide (c.repo = r))))

/-! ## Theorems -/

/-- Claim C6: for every well-formed CollectionResult X and every principal
and year, loading the cache immediately after saving X under
(principal, year) returns X. -/
theorem loadFromCache_saveToCache_roundTrip (store : CacheStore)
    (username : String) (year : Nat) (now : Int) (x : CollectionResult) :
    loadFromCache (saveToCache store username year now x) username year =
      some x := by
  simp [loadFromCache, saveToCache]

/-- Claim C5: `isCacheValid` reports valid exactly when the entry exists,
parses, carries a (truthy) `fetchedAt` timestamp and the age
`(now - fetchedAt) / 3600000` hours is strictly below `maxAgeHours`; at
`maxAgeHours = 24`, an entry aged 24 hours 1 second is invalid and one
aged 23 hours 59 minutes is valid. -/
theorem isCacheValid_spec (data : CacheData) (now : Int) (maxAgeHours : ℚ)
    (u : String) (y : Nat) (rs : List Repo) (cs : List Commit) :
    ((isCacheValid (.parsed data) now maxAgeHours).1 = true ↔
      ∃ t : ℤ, data.fetchedAt = some t ∧ t ≠ 0 ∧
        ((now - t : ℤ) : ℚ) / (1000 * 60 * 60) < maxAgeHours)
    ∧ (isCacheValid .missing now maxAgeHours).1 = false
    ∧ (isCacheValid .unreadable now maxAgeHours).1 = false
    ∧ (now - 86401000 ≠ 0 →
        (isCacheValid
          (.parsed ⟨u, y, some (now - 86401000), rs, cs⟩) now 24).1 = false)
    ∧ (now - 86340000 ≠ 0 →
        (isCacheValid
          (.parsed ⟨u, y, some (now - 86340000), rs, cs⟩) now 24).1 = true) := by
  refine ⟨?_, rfl, rfl, ?_, ?_⟩
  · cases hfa : data.fetchedAt with
    | none => simp [isCacheValid, hfa]
    | some t =>
      by_cases ht : t = 0
      · subst ht
        simp [isCacheValid, hfa]
      · simp [isCacheValid, hfa, ht]
  · intro h
    have h1 : now - (now - 86401000) = (86401000 : ℤ) := by ring
    simp only [isCacheValid, if_neg h, h1]
    norm_num
  · intro h
    have h1 : now - (now - 86340000) = (86340000 : ℤ) := by ring
    simp only [isCacheValid, if_neg h, h1]
    norm_num

/-- Witness for `isCacheValid_spec` at a concrete clock value. -/
theorem isCacheValid_spec_witness :
    ((100000000 : ℤ) - 86401000 ≠ 0 ∧ (100000000 : ℤ) - 86340000 ≠ 0)
    ∧ ((isCacheValid
          (.parsed ⟨"alice", 2024, some ((100000000 : ℤ) - 86401000), [], []⟩)
          100000000 24).1 = false
      ∧ (isCacheValid
          (.parsed ⟨"alice", 2024, some ((100000000 : ℤ) - 86340000), [], []⟩)
          100000000 24).1 = true) :=
  ⟨⟨by decide, by decide⟩,
    (isCacheValid_spec ⟨"alice", 2024, none, [], []⟩ 100000000 24
        "alice" 2024 [] []).2.2.2.1 (by decide),
    (isCacheValid_spec ⟨"alice", 2024, none, [], []⟩ 100000000 24
        "alice" 2024 [] []).2.2.2.2 (by decide)⟩

/-- Claim C3 counterexample: for the input repository name "invalid" the
fetcher raises a fatal error even though the API interaction is not a
rate-limit — here it would have succeeded — refuting "raises a fatal
error exactly when the response is a rate-limit (429)" as a statement
about every (repoFullName, year) input. -/
theorem fetchCommitsForRepo_not_only_429_fatal :
    fetchCommitsForRepo "invalid" 2024 (.success []) =
      .fatal (invalidNameMessage "invalid") := by decide

/-- Claim C3 (amended): for a well-formed `owner/repo` name, a 404, 409 or
403 response yields an empty list without error; a 429 response raises the
fatal rate-limit error; any other failure yields an empty list plus a
warning unless its message contains "Invalid repository name", in which
case it is re-thrown; and a malformed repository name always raises the
validation error, whatever the API outcome. -/
theorem fetchCommitsForRepo_failure_policy
    (name : String) (year : Nat) (msg : String)
    (hname : validRepoName name = true) :
    (∀ s : Nat, s = 404 ∨ s = 409 ∨ s = 403 →
        fetchCommitsForRepo name year (.failure (some s) msg) = .ok [] false)
    ∧ fetchCommitsForRepo name year (.failure (some 429) msg) =
        .fatal rateLimitMessage
    ∧ (∀ status : Option Nat,
        status ≠ some 404 → status ≠ some 409 → status ≠ some 403 →
        status ≠ some 429 → mentionsInvalidName msg = false →
        fetchCommitsForRepo name year (.failure status msg) = .ok [] true)
    ∧ (∀ status : Option Nat,
        status ≠ some 404 → status ≠ some 409 → status ≠ some 403 →
        status ≠ some 429 → mentionsInvalidName msg = true →
        fetchCommitsForRepo name year (.failure status msg) = .fatal msg)
    ∧ (∀ bad : String, ∀ api : ApiResult, validRepoName bad = false →
        fetchCommitsForRepo bad year api = .fatal (invalidNameMessage bad)) := by
  refine ⟨?_, ?_, ?_, ?_, ?_⟩
  · rintro s (rfl | rfl | rfl) <;> simp [fetchCommitsForRepo, hname]
  · simp [fetchCommitsForRepo, hname]
  · intro status h404 h409 h403 h429 hmsg
    simp [fetchCommitsForRepo, hname, h404, h409, h403, h429, hmsg]
  · intro status h404 h409 h403 h429 hmsg
    simp [fetchCommitsForRepo, hname, h404, h409, h403, h429, hmsg]
  · intro bad api hbad
    simp [fetchCommitsForRepo, hbad]

/-- Witness for `fetchCommitsForRepo_failure_policy` on the repository
name "octocat/hello" and a network-failure message. -/
theorem fetchCommitsForRepo_failure_policy_witness :
    validRepoName "octocat/hello" = true
    ∧ fetchCommitsForRepo "octocat/hello" 2024
        (.failure (some 404) "Not Found") = .ok [] false
    ∧ fetchCommitsForRepo "octocat/hello" 2024
        (.failure (some 429) "Not Found") = .fatal rateLimitMessage
    ∧ fetchCommitsForRepo "octocat/hello" 2024
        (.failure none "socket hang up") = .ok [] true :=
  ⟨by decide,
    (fetchCommitsForRepo_failure_policy "octocat/hello" 2024 "Not Found"
        (by decide)).1 404 (Or.inl rfl),
    (fetchCommitsForRepo_failure_policy "octocat/hello" 2024 "Not Found"
        (by decide)).2.1,
    (fetchCommitsForRepo_failure_policy "octocat/hello" 2024 "socket hang up"
        (by decide)).2.2.1 none (by decide) (by decide) (by decide) (by decide)
        (by decide)⟩

/-- Claim C4: over 7 repositories with batch size 3 the collector forms
exactly the 3 consecutive batches of sizes 3, 3 and 1, and when the fetch
for repository #4 rejects, the returned flat list is exactly the
concatenation of the commits of the other 6 repositories, in order. -/
theorem collectAllCommits_batch_isolation
    (r0 r1 r2 r3 r4 r5 r6 : Repo) (fetch : Repo → FetchResult)
    (cs0 cs1 cs2 cs4 cs5 cs6 : List Commit)
    (w0 w1 w2 w4 w5 w6 : Bool) (msg : String)
    (h0 : fetch r0 = .ok cs0 w0) (h1 : fetch r1 = .ok cs1 w1)
    (h2 : fetch r2 = .ok cs2 w2) (h3 : fetch r3 = .fatal msg)
    (h4 : fetch r4 = .ok cs4 w4) (h5 : fetch r5 = .ok cs5 w5)
    (h6 : fetch r6 = .ok cs6 w6) :
    makeBatches 3 [r0, r1, r2, r3, r4, r5, r6] =
        [[r0, r1, r2], [r3, r4, r5], [r6]]
    ∧ collectAllCommits [r0, r1, r2, r3, r4, r5, r6] 3 fetch =
        cs0 ++ cs1 ++ cs2 ++ cs4 ++ cs5 ++ cs6 := by
  constructor
  · simp [makeBatches, chunk]
  · simp [collectAllCommits, makeBatches, chunk, caughtCommits,
      h0, h1, h2, h3, h4, h5, h6]

/-- Witness for `collectAllCommits_batch_isolation`: seven concrete
repositories where the fetch of "u/d" (repository #4) rejects and each
other repository yields one commit. -/
theorem collectAllCommits_batch_isolation_witness :
    makeBatches 3 [Repo.mk "u/a", Repo.mk "u/b", Repo.mk "u/c", Repo.mk "u/d",
        Repo.mk "u/e", Repo.mk "u/f", Repo.mk "u/g"] =
      [[Repo.mk "u/a", Repo.mk "u/b", Repo.mk "u/c"],
       [Repo.mk "u/d", Repo.mk "u/e", Repo.mk "u/f"],
       [Repo.mk "u/g"]]
    ∧ collectAllCommits
        [Repo.mk "u/a", Repo.mk "u/b", Repo.mk "u/c", Repo.mk "u/d",
         Repo.mk "u/e", Repo.mk "u/f", Repo.mk "u/g"] 3
        (fun r => if r.full_name = "u/d" then .fatal "boom"
                  else .ok [⟨"s", "m", 0, r.full_name⟩] false) =
      [⟨"s", "m", 0, "u/a"⟩] ++ [⟨"s", "m", 0, "u/b"⟩] ++
      [⟨"s", "m", 0, "u/c"⟩] ++ [⟨"s", "m", 0, "u/e"⟩] ++
      [⟨"s", "m", 0, "u/f"⟩] ++ [⟨"s", "m", 0, "u/g"⟩] :=
  collectAllCommits_batch_isolation
    (Repo.mk "u/a") (Repo.mk "u/b") (Repo.mk "u/c") (Repo.mk "u/d")
    (Repo.mk "u/e") (Repo.mk "u/f") (Repo.mk "u/g")
    (fun r => if r.full_name = "u/d" then .fatal "boom"
              else .ok [⟨"s", "m", 0, r.full_name⟩] false)
    [⟨"s", "m", 0, "u/a"⟩] [⟨"s", "m", 0, "u/b"⟩] [⟨"s", "m", 0, "u/c"⟩]
    [⟨"s", "m", 0, "u/e"⟩] [⟨"s", "m", 0, "u/f"⟩] [⟨"s", "m", 0, "u/g"⟩]
    false false false false false false "boom"
    (by decide) (by decide) (by decide) (by decide) (by decide) (by decide)
    (by decide)

/-- The weekday counter fold of `getCommitsByDayOfWeek` computes, at each
name, the initial value plus the number of commits whose weekday bears
that name. -/
theorem foldl_weekday_count (commits : List Commit) (f : String → Nat)
    (day : String) :
    (commits.foldl
        (fun acc c => fun name =>
          if name = weekdayName c.date then acc name + 1 else acc name)
        f) day
      = f day + commits.countP (fun c => decide (day = weekdayName c.date)) := by
  induction commits generalizing f with
  | nil => simp
  | cons c cs ih =>
    simp only [List.foldl_cons, List.countP_cons, ih]
    by_cases hd : day = weekdayName c.date
    · simp [hd]
      omega
    · simp [hd]

/-- Claim C1 counterexample: on the empty commit list,
`getCommitsByDayOfWeek` returns the empty list, not seven zero-filled
buckets. -/
theorem getCommitsByDayOfWeek_empty_counterexample :
    getCommitsByDayOfWeek ([] : List Commit) = []
    ∧ (getCommitsByDayOfWeek ([] : List Commit)).length ≠ 7 := by decide

/-- Claim C1 (amended): for every NON-EMPTY commit list,
`getCommitsByDayOfWeek` returns exactly seven `(day, count)` entries in
the fixed order Monday…Sunday, the count of each entry being the number
of commits on that weekday (zero for inactive weekdays); for the empty
list it returns the empty list instead. -/
theorem getCommitsByDayOfWeek_nonempty_seven (commits : List Commit)
    (h : commits ≠ []) :
    (getCommitsByDayOfWeek commits).length = 7
    ∧ (getCommitsByDayOfWeek commits).map Prod.fst = orderedDays
    ∧ ∀ p ∈ getCommitsByDayOfWeek commits,
        p.2 = commits.countP (fun c => decide (p.1 = weekdayName c.date)) := by
  have hlen : ¬commits.length = 0 := fun h0 => h (List.length_eq_zero.mp h0)
  refine ⟨?_, ?_, ?_⟩
  · simp [getCommitsByDayOfWeek, hlen, orderedDays]
  · simp [getCommitsByDayOfWeek, hlen, Function.comp_def]
  · intro p hp
    simp only [getCommitsByDayOfWeek, if_neg hlen, List.mem_map] at hp
    obtain ⟨day, _, rfl⟩ := hp
    simpa using foldl_weekday_count commits (fun _ => 0) day

/-- Witness for `getCommitsByDayOfWeek_nonempty_seven`: a single commit on
2024-01-01 (a Monday). -/
theorem getCommitsByDayOfWeek_nonempty_seven_witness :
    ([(⟨"s", "m", daysFromCivil 2024 1 1, "r"⟩ : Commit)] ≠ [])
    ∧ ((getCommitsByDayOfWeek
          [(⟨"s", "m", daysFromCivil 2024 1 1, "r"⟩ : Commit)]).length = 7
      ∧ (getCommitsByDayOfWeek
          [(⟨"s", "m", daysFromCivil 2024 1 1, "r"⟩ : Commit)]).map Prod.fst =
            orderedDays
      ∧ ∀ p ∈ getCommitsByDayOfWeek
          [(⟨"s", "m", daysFromCivil 2024 1 1, "r"⟩ : Commit)],
          p.2 = [(⟨"s", "m", daysFromCivil 2024 1 1, "r"⟩ : Commit)].countP
            (fun c => decide (p.1 = weekdayName c.date))) :=
  ⟨by decide,
    getCommitsByDayOfWeek_nonempty_seven
      [(⟨"s", "m", daysFromCivil 2024 1 1, "r"⟩ : Commit)] (by decide)⟩

/-- The sorted unique date list of `calculateLongestStreak` depends only on
the SET of commit days: if that set is the one of a sorted
duplicate-free list, the scan runs over exactly that list. -/
theorem uniqueSortedDates_eq_of_toFinset {commits : List Commit}
    {target : List Nat}
    (ht : (commits.map Commit.date).toFinset = target.toFinset)
    (hnodup : target.Nodup) (hsorted : List.Sorted (· ≤ ·) target) :
    uniqueSortedDates commits = target := by
  have hperm : (commits.map Commit.date).dedup.Perm target.dedup :=
    List.toFinset_eq_iff_perm_dedup.mp ht
  rw [List.dedup_eq_self.mpr hnodup] at hperm
  exact List.eq_of_perm_of_sorted
    ((List.perm_insertionSort _ _).trans hperm)
    (List.sorted_insertionSort _ _) hsorted

/-- Claim C2: when the commits fall exactly on the calendar dates
2024-01-01, 2024-01-02, 2024-01-03 and 2024-01-05 (any multiplicity, any
order), the longest streak has 3 days, starting 2024-01-01 and ending
2024-01-03. -/
theorem calculateLongestStreak_jan2024 (commits : List Commit)
    (h : (commits.map Commit.date).toFinset =
        [daysFromCivil 2024 1 1, daysFromCivil 2024 1 2,
         daysFromCivil 2024 1 3, daysFromCivil 2024 1 5].toFinset) :
    calculateLongestStreak commits =
      some ⟨3, daysFromCivil 2024 1 1, daysFromCivil 2024 1 3⟩ := by
  have hdates : uniqueSortedDates commits = [19723, 19724, 19725, 19727] :=
    uniqueSortedDates_eq_of_toFinset (by rw [h]; decide) (by decide) (by decide)
  have hne : ¬commits.length = 0 := by
    intro h0
    rw [List.length_eq_zero.mp h0] at h
    exact absurd h.symm (by decide)
  rw [calculateLongestStreak, if_neg hne, hdates]
  decide

/-- Witness for `calculateLongestStreak_jan2024`: five commits on the four
dates, out of order and with 2024-01-01 duplicated. -/
theorem calculateLongestStreak_jan2024_witness :
    (([⟨"a", "m1", 19725, "r"⟩, ⟨"b", "m2", 19723, "r"⟩,
       ⟨"c", "m3", 19727, "r"⟩, ⟨"d", "m4", 19724, "r"⟩,
       ⟨"e", "m5", 19723, "r"⟩] : List Commit).map Commit.date).toFinset =
      [daysFromCivil 2024 1 1, daysFromCivil 2024 1 2,
       daysFromCivil 2024 1 3, daysFromCivil 2024 1 5].toFinset
    ∧ calculateLongestStreak
        [⟨"a", "m1", 19725, "r"⟩, ⟨"b", "m2", 19723, "r"⟩,
         ⟨"c", "m3", 19727, "r"⟩, ⟨"d", "m4", 19724, "r"⟩,
         ⟨"e", "m5", 19723, "r"⟩] =
        some ⟨3, daysFromCivil 2024 1 1, daysFromCivil 2024 1 3⟩ :=
  ⟨by decide,
    calculateLongestStreak_jan2024
      [⟨"a", "m1", 19725, "r"⟩, ⟨"b", "m2", 19723, "r"⟩,
       ⟨"c", "m3", 19727, "r"⟩, ⟨"d", "m4", 19724, "r"⟩,
       ⟨"e", "m5", 19723, "r"⟩] (by decide)⟩

/-- Claim C9: `calculateLongestStreak` returns `none` exactly for the
empty commit list, and a commit list living on the single calendar date
`d` yields the streak `{days: 1, startDate: d, endDate: d}`. -/
theorem calculateLongestStreak_empty_single (commits : List Commit)
    (d : Nat) :
    (calculateLongestStreak commits = none ↔ commits = [])
    ∧ (commits ≠ [] → (∀ c ∈ commits, c.date = d) →
        calculateLongestStreak commits = some ⟨1, d, d⟩) := by
  constructor
  · constructor
    · intro hnone
      by_contra hne
      obtain ⟨c, hc⟩ := List.exists_mem_of_ne_nil commits hne
      have hmem : c.date ∈ uniqueSortedDates commits := by
        rw [uniqueSortedDates, (List.perm_insertionSort _ _).mem_iff,
          List.mem_dedup]
        exact List.mem_map_of_mem Commit.date hc
      have hlen : ¬commits.length = 0 :=
        fun h0 => hne (List.length_eq_zero.mp h0)
      rw [calculateLongestStreak, if_neg hlen] at hnone
      rcases hu : uniqueSortedDates commits with _ | ⟨x, _ | ⟨y, xs⟩⟩ <;>
        rw [hu] at hnone hmem
      · exact absurd hmem (List.not_mem_nil _)
      · exact absurd hnone (by simp [streakFromSorted])
      · exact absurd hnone (by simp [streakFromSorted])
    · intro he
      rw [he]
      rfl
  · intro hne hall
    have ht : (commits.map Commit.date).toFinset = [d].toFinset := by
      ext x
      simp only [List.mem_toFinset, List.mem_map, List.mem_singleton]
      constructor
      · rintro ⟨c, hc, rfl⟩
        exact hall c hc
      · rintro rfl
        obtain ⟨c, hc⟩ := List.exists_mem_of_ne_nil commits hne
        exact ⟨c, hc, hall c hc⟩
    have hdates : uniqueSortedDates commits = [d] :=
      uniqueSortedDates_eq_of_toFinset ht (by simp) (by simp)
    have hlen : ¬commits.length = 0 :=
      fun h0 => hne (List.length_eq_zero.mp h0)
    rw [calculateLongestStreak, if_neg hlen, hdates]
    rfl

/-- Witness for `calculateLongestStreak_empty_single`: two commits, both
on 2024-06-15. -/
theorem calculateLongestStreak_empty_single_witness :
    (([⟨"a", "m1", 19889, "r"⟩, ⟨"b", "m2", 19889, "q"⟩] : List Commit) ≠ [])
    ∧ (∀ c ∈ ([⟨"a", "m1", 19889, "r"⟩, ⟨"b", "m2", 19889, "q"⟩] :
          List Commit), c.date = daysFromCivil 2024 6 15)
    ∧ calculateLongestStreak
        [⟨"a", "m1", 19889, "r"⟩, ⟨"b", "m2", 19889, "q"⟩] =
        some ⟨1, daysFromCivil 2024 6 15, daysFromCivil 2024 6 15⟩ :=
  ⟨by decide, by decide,
    (calculateLongestStreak_empty_single
        [⟨"a", "m1", 19889, "r"⟩, ⟨"b", "m2", 19889, "q"⟩]
        (daysFromCivil 2024 6 15)).2 (by decide) (by decide)⟩

/-- Claim C8: on the messages "Fix bug", "fix another bug" and
"v1.2.3 release", `getTopWords` counts fix = 2, bug = 2, another = 1,
release = 1, and no entry is a fragment of "v1.2.3" or shorter than 3
characters. -/
theorem getTopWords_concrete :
    getTopWords
        [⟨"a", "Fix bug", 0, "r"⟩, ⟨"b", "fix another bug", 0, "r"⟩,
         ⟨"c", "v1.2.3 release", 0, "r"⟩] 10 =
      [("fix", 2), ("bug", 2), ("another", 1), ("release", 1)]
    ∧ ∀ p ∈ getTopWords
        [⟨"a", "Fix bug", 0, "r"⟩, ⟨"b", "fix another bug", 0, "r"⟩,
         ⟨"c", "v1.2.3 release", 0, "r"⟩] 10,
        3 ≤ p.1.length ∧ p.1 ∉ ["v1.2.3", "v1", "2", "3"] := by decide

/-- Every character of a cleaned message is a word character or
whitespace (replaced characters become spaces). -/
theorem cleanChar_word_or_space (c : Char) :
    isWordChar (cleanChar c) = true ∨ (cleanChar c).isWhitespace = true := by
  unfold cleanChar
  by_cases h : (isWordChar c || c.isWhitespace) = true
  · rw [if_pos h]
    exact Bool.or_eq_true _ _ |>.mp h
  · rw [if_neg h]
    right
    decide

/-- Tokens produced by the whitespace splitter contain only word
characters, provided the input mixes only word characters and whitespace
and the pending accumulator holds word characters. -/
theorem wsSplit_words_wordChar (cs : List Char) :
    ∀ acc : List Char,
    (∀ c ∈ cs, isWordChar c = true ∨ c.isWhitespace = true) →
    (∀ c ∈ acc, isWordChar c = true) →
    ∀ w ∈ wsSplit cs acc, ∀ c ∈ w.data, isWordChar c = true := by
  induction cs with
  | nil =>
    intro acc _ hacc w hw c hc
    by_cases he : acc.isEmpty
    · simp [wsSplit, he] at hw
    · simp only [wsSplit, he, if_false, Bool.false_eq_true, List.mem_singleton]
        at hw
      subst hw
      exact hacc c (List.mem_reverse.mp hc)
  | cons d rest ih =>
    intro acc hcs hacc w hw c hc
    have hhead := hcs d (List.mem_cons_self d rest)
    have hrest : ∀ x ∈ rest, isWordChar x = true ∨ x.isWhitespace = true :=
      fun x hx => hcs x (List.mem_cons_of_mem d hx)
    by_cases hws : d.isWhitespace = true
    · by_cases he : acc.isEmpty
      · rw [wsSplit, if_pos hws, if_pos he] at hw
        exact ih [] hrest (by simp) w hw c hc
      · rw [wsSplit, if_pos hws, if_neg he] at hw
        rcases List.mem_cons.mp hw with rfl | hw2
        · exact hacc c (List.mem_reverse.mp hc)
        · exact ih [] hrest (by simp) w hw2 c hc
    · rw [wsSplit, if_neg hws] at hw
      have hd : isWordChar d = true := hhead.resolve_right hws
      refine ih (d :: acc) hrest ?_ w hw c hc
      intro x hx
      rcases List.mem_cons.mp hx with rfl | hx2
      · exact hd
      · exact hacc x hx2

/-- A character list accepted by the post-`v` part of the version-number
regex contains a literal dot. -/
theorem isVersionCore_implies_dot (l : List Char)
    (h : isVersionCore l = true) : '.' ∈ l := by
  unfold isVersionCore at h
  simp only [Bool.and_eq_true] at h
  obtain ⟨-, h⟩ := h
  have hdot : '.' ∈ l.dropWhile Char.isDigit := by
    split at h
    · rename_i heq
      rw [heq]
      exact List.mem_cons_self _ _
    · exact absurd h (by simp)
  rw [← List.takeWhile_append_dropWhile Char.isDigit l]
  exact List.mem_append_right _ hdot

/-- A word recognised as a version number contains a literal dot. -/
theorem isVersionNumber_implies_dot (w : String)
    (h : isVersionNumber w = true) : '.' ∈ w.data := by
  unfold isVersionNumber at h
  split at h
  · rename_i rest heq
    rw [heq]
    exact List.mem_cons_of_mem _ (isVersionCore_implies_dot rest h)
  · exact isVersionCore_implies_dot _ h

/-- No token produced by `extractWords` is a version number: every token
character is a word character, and the version-number pattern demands a
dot, which is not a word character. -/
theorem extractWords_not_version (msg : String) (w : String)
    (hw : w ∈ extractWords msg) : isVersionNumber w = false := by
  cases hvb : isVersionNumber w with
  | false => rfl
  | true =>
    have hchars : ∀ c ∈ w.data, isWordChar c = true := by
      refine wsSplit_words_wordChar (cleanMessage msg) [] ?_ (by simp) w hw
      intro c hc
      obtain ⟨c0, -, rfl⟩ := List.mem_map.mp hc
      exact cleanChar_word_or_space c0.toLower
    have hdotword : isWordChar '.' = true :=
      hchars '.' (isVersionNumber_implies_dot w hvb)
    exact absurd hdotword (by decide)

/-- Claim C10: the version-number check inside `getTopWords` is inert —
every token of `extractWords` is dot-free, so `isVersionNumber` rejects
nothing and `getTopWords` computes the same result without the filter;
dotted version strings disappear because their dot-split fragments fail
the other filters. -/
theorem getTopWords_version_filter_inert (commits : List Commit)
    (limit : Nat) (msg : String) (w : String)
    (hw : w ∈ extractWords msg) :
    isVersionNumber w = false
    ∧ getTopWords commits limit = getTopWordsNoVersion commits limit := by
  refine ⟨extractWords_not_version msg w hw, ?_⟩
  have hcounts : wordCounts commits = wordCountsNoVersion commits := by
    unfold wordCounts wordCountsNoVersion
    refine List.foldl_ext _ _ _ ?_
    intro acc c _
    refine List.foldl_ext _ _ acc ?_
    intro acc2 ww hww
    have hok : topWordOk ww = topWordOkNoVersion ww := by
      unfold topWordOk topWordOkNoVersion
      rw [extractWords_not_version c.message ww hww]
      simp
    rw [hok]
  unfold getTopWords getTopWordsNoVersion
  rw [hcounts]

/-- Witness for `getTopWords_version_filter_inert`: the token "release"
of the message "v1.2.3 release" and a one-commit list. -/
theorem getTopWords_version_filter_inert_witness :
    ("release" ∈ extractWords "v1.2.3 release")
    ∧ (isVersionNumber "release" = false
      ∧ getTopWords [⟨"a", "Fix bug v2.0", 0, "r"⟩] 10 =
          getTopWordsNoVersion [⟨"a", "Fix bug v2.0", 0, "r"⟩] 10) :=
  ⟨by decide,
    getTopWords_version_filter_inert [⟨"a", "Fix bug v2.0", 0, "r"⟩] 10
      "v1.2.3 release" "release" (by decide)⟩

/-- `dedupFirst` keeps exactly the elements of the list. -/
theorem mem_dedupFirst {α : Type} [DecidableEq α] (l : List α) (a : α) :
    a ∈ dedupFirst l ↔ a ∈ l := by
  induction l using dedupFirst.induct with
  | case1 => simp [dedupFirst]
  | case2 x xs ih =>
    simp only [dedupFirst, List.mem_cons, ih, List.mem_filter]
    by_cases ha : a = x
    · simp [ha]
    · simp [ha]

/-- `dedupFirst` produces no duplicate keys. -/
theorem nodup_dedupFirst {α : Type} [DecidableEq α] (l : List α) :
    (dedupFirst l).Nodup := by
  induction l using dedupFirst.induct with
  | case1 => simp [dedupFirst]
  | case2 x xs ih =>
    rw [dedupFirst, List.nodup_cons]
    refine ⟨fun hx => ?_, ih⟩
    have hmem := (mem_dedupFirst _ _).mp hx
    have := (List.mem_filter.mp hmem).2
    simp at this

/-- Appending an element already present does not change the key order. -/
theorem dedupFirst_append_mem {α : Type} [DecidableEq α] (l : List α) :
    ∀ a ∈ l, dedupFirst (l ++ [a]) = dedupFirst l := by
  induction l using dedupFirst.induct with
  | case1 => simp
  | case2 x xs ih =>
    intro a ha
    rw [List.cons_append, dedupFirst]
    conv_rhs => rw [dedupFirst]
    congr 1
    rw [List.filter_append]
    by_cases hax : a = x
    · subst hax
      simp
    · have ha2 : a ∈ xs := (List.mem_cons.mp ha).resolve_left hax
      have hfa : List.filter (fun y => decide (y ≠ x)) [a] = [a] := by
        simp [hax]
      rw [hfa]
      exact ih a (List.mem_filter.mpr ⟨ha2, by simp [hax]⟩)

/-- Appending a fresh element appends its key at the end. -/
theorem dedupFirst_append_not_mem {α : Type} [DecidableEq α] (l : List α) :
    ∀ a ∉ l, dedupFirst (l ++ [a]) = dedupFirst l ++ [a] := by
  induction l using dedupFirst.induct with
  | case1 =>
    intro a _
    simp [dedupFirst]
  | case2 x xs ih =>
    intro a ha
    have hax : a ≠ x := fun hh => ha (hh ▸ List.mem_cons_self x xs)
    have ha2 : a ∉ xs := fun hh => ha (List.mem_cons_of_mem x hh)
    rw [List.cons_append, dedupFirst]
    conv_rhs => rw [dedupFirst]
    rw [List.cons_append]
    congr 1
    rw [List.filter_append]
    have hfa : List.filter (fun y => decide (y ≠ x)) [a] = [a] := by
      simp [hax]
    rw [hfa]
    exact ih a (fun hh => ha2 (List.mem_filter.mp hh).1)

/-- Filtering preserves the relative order of first occurrences: if `a`
first occurs before `b` in the filtered list, it does so in the original
list too. -/
theorem filter_indexOf_lt {α : Type} [DecidableEq α] (p : α → Bool)
    (l : List α) :
    ∀ a b, a ∈ l.filter p → b ∈ l.filter p →
      (l.filter p).indexOf a < (l.filter p).indexOf b →
      l.indexOf a < l.indexOf b := by
  induction l with
  | nil => simp
  | cons x xs ih =>
    intro a b ha hb hlt
    by_cases hpx : p x = true
    · rw [List.filter_cons_of_pos hpx] at ha hb hlt
      by_cases hax : a = x
      · subst hax
        by_cases hba : b = a
        · subst hba
          exact absurd hlt (lt_irrefl _)
        · rw [List.indexOf_cons_self, List.indexOf_cons_ne _ (Ne.symm hba)]
          exact Nat.succ_pos _
      · by_cases hbx : b = x
        · subst hbx
          rw [List.indexOf_cons_self] at hlt
          exact absurd hlt (Nat.not_lt_zero _)
        · have ha2 : a ∈ xs.filter p := (List.mem_cons.mp ha).resolve_left hax
          have hb2 : b ∈ xs.filter p := (List.mem_cons.mp hb).resolve_left hbx
          rw [List.indexOf_cons_ne _ (Ne.symm hax),
            List.indexOf_cons_ne _ (Ne.symm hbx)] at hlt
          rw [List.indexOf_cons_ne _ (Ne.symm hax),
            List.indexOf_cons_ne _ (Ne.symm hbx)]
          exact Nat.succ_lt_succ
            (ih a b ha2 hb2 (Nat.lt_of_succ_lt_succ hlt))
    · rw [List.filter_cons_of_neg hpx] at ha hb hlt
      have hax : a ≠ x := fun hh => hpx (hh ▸ (List.mem_filter.mp ha).2)
      have hbx : b ≠ x := fun hh => hpx (hh ▸ (List.mem_filter.mp hb).2)
      rw [List.indexOf_cons_ne _ (Ne.symm hax),
        List.indexOf_cons_ne _ (Ne.symm hbx)]
      exact Nat.succ_lt_succ (ih a b ha hb hlt)

/-- The order of keys in `dedupFirst l` is the order of their first
occurrences in `l`. -/
theorem dedupFirst_indexOf_lt {α : Type} [DecidableEq α] (l : List α) :
    ∀ a b, a ∈ dedupFirst l → b ∈ dedupFirst l →
      (dedupFirst l).indexOf a < (dedupFirst l).indexOf b →
      l.indexOf a < l.indexOf b := by
  induction l using dedupFirst.induct with
  | case1 => simp [dedupFirst]
  | case2 x xs ih =>
    intro a b ha hb hlt
    rw [dedupFirst] at ha hb hlt
    by_cases hax : a = x
    · subst hax
      by_cases hba : b = a
      · subst hba
        exact absurd hlt (lt_irrefl _)
      · rw [List.indexOf_cons_self, List.indexOf_cons_ne _ (Ne.symm hba)]
        exact Nat.succ_pos _
    · by_cases hbx : b = x
      · subst hbx
        rw [List.indexOf_cons_self] at hlt
        exact absurd hlt (Nat.not_lt_zero _)
      · have ha2 : a ∈ dedupFirst (xs.filter (fun y => y ≠ x)) :=
          (List.mem_cons.mp ha).resolve_left hax
        have hb2 : b ∈ dedupFirst (xs.filter (fun y => y ≠ x)) :=
          (List.mem_cons.mp hb).resolve_left hbx
        rw [List.indexOf_cons_ne _ (Ne.symm hax),
          List.indexOf_cons_ne _ (Ne.symm hbx)] at hlt
        have h2 := ih a b ha2 hb2 (Nat.lt_of_succ_lt_succ hlt)
        have h3 := filter_indexOf_lt (fun y => decide (y ≠ x)) xs a b
          ((mem_dedupFirst _ _).mp ha2) ((mem_dedupFirst _ _).mp hb2) h2
        rw [List.indexOf_cons_ne _ (Ne.symm hax),
          List.indexOf_cons_ne _ (Ne.symm hbx)]
        exact Nat.succ_lt_succ h3

/-- A duplicate-free list is ordered by its own `indexOf`. -/
theorem nodup_pairwise_indexOf {α : Type} [DecidableEq α] (l : List α)
    (h : l.Nodup) :
    l.Pairwise (fun a b => l.indexOf a < l.indexOf b) := by
  induction l with
  | nil => simp
  | cons x xs ih =>
    rw [List.nodup_cons] at h
    rw [List.pairwise_cons]
    constructor
    · intro b hb
      have hbx : b ≠ x := fun hh => h.1 (hh ▸ hb)
      rw [List.indexOf_cons_self, List.indexOf_cons_ne _ (Ne.symm hbx)]
      exact Nat.succ_pos _
    · refine (ih h.2).imp_of_mem ?_
      intro a b ha hb hlt
      have hax : a ≠ x := fun hh => h.1 (hh ▸ ha)
      have hbx : b ≠ x := fun hh => h.1 (hh ▸ hb)
      rw [List.indexOf_cons_ne _ (Ne.symm hax),
        List.indexOf_cons_ne _ (Ne.symm hbx)]
      exact Nat.succ_lt_succ hlt

/-- One `bump` step updates the counter object exactly as appending the
commit to the processed prefix does. -/
theorem bump_repoCountsState (p : List Commit) (c : Commit) :
    bump (repoCountsState p) c.repo = repoCountsState (p ++ [c]) := by
  have hmap : (p ++ [c]).map Commit.repo = p.map Commit.repo ++ [c.repo] := by
    simp
  by_cases hc : c.repo ∈ p.map Commit.repo
  · have hany : (repoCountsState p).any (fun q => q.1 = c.repo) = true := by
      rw [List.any_eq_true]
      exact ⟨(c.repo, p.countP (fun cc => decide (cc.repo = c.repo))),
        List.mem_map_of_mem _ ((mem_dedupFirst _ _).mpr hc), by simp⟩
    rw [bump, if_pos hany, repoCountsState, repoCountsState, hmap,
      dedupFirst_append_mem (p.map Commit.repo) c.repo hc, List.map_map]
    refine List.map_congr_left ?_
    intro r hr
    have hcount : (p ++ [c]).countP (fun cc => decide (cc.repo = r)) =
        p.countP (fun cc => decide (cc.repo = r)) +
          if c.repo = r then 1 else 0 := by
      rw [List.countP_append]
      simp [List.countP_cons]
    by_cases hr2 : r = c.repo
    · subst hr2
      simp [hcount]
    · have hrc : ¬c.repo = r := fun hh => hr2 hh.symm
      simp [hcount, hr2, hrc]
  · have hc2 : c.repo ∉ dedupFirst (p.map Commit.repo) :=
      fun hh => hc ((mem_dedupFirst _ _).mp hh)
    have hany : ¬(repoCountsState p).any (fun q => q.1 = c.repo) = true := by
      rw [List.any_eq_true]
      rintro ⟨q, hq, hq2⟩
      obtain ⟨r, hrD, rfl⟩ := List.mem_map.mp hq
      simp only [decide_eq_true_eq] at hq2
      exact hc2 (hq2 ▸ hrD)
    rw [bump, if_neg hany, repoCountsState, repoCountsState, hmap,
      dedupFirst_append_not_mem (p.map Commit.repo) c.repo hc,
      List.map_append]
    congr 1
    · refine List.map_congr_left ?_
      intro r hr
      have hrc : ¬c.repo = r := by
        intro hh
        exact hc (hh ▸ (mem_dedupFirst _ _).mp hr)
      simp [List.countP_append, List.countP_cons, hrc]
    · have h0 : p.countP (fun cc => decide (cc.repo = c.repo)) = 0 := by
        rw [List.countP_eq_zero]
        intro a ha hpa
        simp only [decide_eq_true_eq] at hpa
        exact hc (hpa ▸ List.mem_map_of_mem Commit.repo ha)
      simp [List.countP_append, List.countP_cons, h0]

/-- Folding `bump` over the rest of the commit list extends the processed
prefix. -/
theorem foldl_bump_repoCountsState (l : List Commit) :
    ∀ p : List Commit,
      List.foldl (fun acc c => bump acc c.repo) (repoCountsState p) l =
        repoCountsState (p ++ l) := by
  induction l with
  | nil =>
    intro p
    simp
  | cons c l ih =>
    intro p
    rw [List.foldl_cons, bump_repoCountsState, ih (p ++ [c])]
    simp

/-- The `repoCounts` object lists each distinct repository name at its
first appearance, with its total commit count. -/
theorem repoCounts_eq_state (commits : List Commit) :
    repoCounts commits = repoCountsState commits := by
  have h0 : repoCountsState [] = ([] : List (String × Nat)) := by
    simp [repoCountsState, dedupFirst]
  calc repoCounts commits
      = List.foldl (fun acc c => bump acc c.repo) (repoCountsState [])
          commits := by rw [h0, repoCounts]
    _ = repoCountsState ([] ++ commits) := foldl_bump_repoCountsState commits []
    _ = repoCountsState commits := by rw [List.nil_append]

/-- Inserting into a list whose keys all dominate the inserted element's
key preserves the equal-count key ordering (`List.orderedInsert` places
the new element before the first entry it ties with, and ties are ruled
out by the key hypothesis). -/
theorem orderedInsert_stable_key (kf : RepoStat → Nat) (a : RepoStat) :
    ∀ m : List RepoStat,
      List.Pairwise (fun x y => x.count = y.count → kf x < kf y) m →
      (∀ x ∈ m, kf a < kf x) →
      List.Pairwise (fun x y => x.count = y.count → kf x < kf y)
        (List.orderedInsert countDescStat a m) := by
  intro m
  induction m with
  | nil =>
    intro _ _
    simp
  | cons b m2 ih =>
    intro hpw hkey
    rw [List.orderedInsert]
    by_cases hr : countDescStat a b
    · rw [if_pos hr, List.pairwise_cons]
      exact ⟨fun y hy _ => hkey y hy, hpw⟩
    · rw [if_neg hr, List.pairwise_cons]
      constructor
      · intro y hy
        rcases (List.mem_orderedInsert _).mp hy with rfl | hy2
        · intro heq
          exact absurd (le_of_eq heq) hr
        · exact (List.pairwise_cons.mp hpw).1 y hy2
      · exact ih (List.pairwise_cons.mp hpw).2
          (fun x hx => hkey x (List.mem_cons_of_mem _ hx))

/-- Stability of the descending-count insertion sort: a strictly
key-increasing input yields an output where equal counts keep increasing
keys. -/
theorem insertionSort_stable_key (kf : RepoStat → Nat) :
    ∀ l : List RepoStat,
      List.Pairwise (fun x y => kf x < kf y) l →
      List.Pairwise (fun x y => x.count = y.count → kf x < kf y)
        (List.insertionSort countDescStat l) := by
  intro l
  induction l with
  | nil =>
    intro _
    simp
  | cons a l2 ih =>
    intro hpw
    rw [List.insertionSort]
    rcases List.pairwise_cons.mp hpw with ⟨hhead, htail⟩
    refine orderedInsert_stable_key kf a _ (ih htail) ?_
    intro x hx
    exact hhead x ((List.perm_insertionSort countDescStat l2).mem_iff.mp hx)

/-- Claim C7: for every non-empty commit list and limit N,
`getTopRepositories` returns at most N entries, sorted by count
descending, each entry carrying the number of commits of its repository
and the percentage `100 × count / total` rounded to one decimal place,
and entries with equal counts appear in the order of their repositories'
first appearance in the input list. -/
theorem getTopRepositories_spec (commits : List Commit) (limit : Nat)
    (h : commits ≠ []) :
    (getTopRepositories commits limit).length ≤ limit
    ∧ List.Pairwise (fun a b : RepoStat => b.count ≤ a.count)
        (getTopRepositories commits limit)
    ∧ (∀ e ∈ getTopRepositories commits limit,
        e.count = commits.countP (fun c => decide (c.repo = e.repo))
        ∧ e.percentage =
            roundTo1 (100 * (e.count : ℚ) / (commits.length : ℚ)))
    ∧ List.Pairwise
        (fun a b : RepoStat => a.count = b.count →
          (commits.map Commit.repo).indexOf a.repo <
            (commits.map Commit.repo).indexOf b.repo)
        (getTopRepositories commits limit) := by
  have hlen : ¬commits.length = 0 := fun h0 => h (List.length_eq_zero.mp h0)
  have hdef : getTopRepositories commits limit =
      ((((repoCounts commits).map
          (fun p => RepoStat.mk p.1 p.2
            ((p.2 : ℚ) / (commits.length : ℚ) * 100))).insertionSort
              countDescStat).take limit).map
        (fun s => { s with percentage := roundTo1 s.percentage }) := by
    rw [getTopRepositories, if_neg hlen]
  have hmapped : (repoCounts commits).map
      (fun p => RepoStat.mk p.1 p.2
        ((p.2 : ℚ) / (commits.length : ℚ) * 100)) =
      (dedupFirst (commits.map Commit.repo)).map
        (fun r => RepoStat.mk r
          (commits.countP (fun c => decide (c.repo = r)))
          (((commits.countP (fun c => decide (c.repo = r)) : ℚ)) /
            (commits.length : ℚ) * 100)) := by
    rw [repoCounts_eq_state, repoCountsState, List.map_map]
    rfl
  have hpwK : List.Pairwise
      (fun x y : RepoStat =>
        (commits.map Commit.repo).indexOf x.repo <
          (commits.map Commit.repo).indexOf y.repo)
      ((repoCounts commits).map
        (fun p => RepoStat.mk p.1 p.2
          ((p.2 : ℚ) / (commits.length : ℚ) * 100))) := by
    rw [hmapped]
    refine List.pairwise_map.mpr ?_
    refine List.Pairwise.imp_of_mem ?_
      (nodup_pairwise_indexOf _ (nodup_dedupFirst (commits.map Commit.repo)))
    intro a b ha hb hlt
    exact dedupFirst_indexOf_lt (commits.map Commit.repo) a b ha hb hlt
  have hsorted : List.Sorted countDescStat
      (((repoCounts commits).map
        (fun p => RepoStat.mk p.1 p.2
          ((p.2 : ℚ) / (commits.length : ℚ) * 100))).insertionSort
            countDescStat) :=
    List.sorted_insertionSort countDescStat _
  have hstable := insertionSort_stable_key
    (fun s => (commits.map Commit.repo).indexOf s.repo) _ hpwK
  refine ⟨?_, ?_, ?_, ?_⟩
  · rw [hdef, List.length_map]
    exact List.length_take_le _ _
  · rw [hdef]
    refine List.pairwise_map.mpr ?_
    exact List.Pairwise.sublist (List.take_sublist _ _) hsorted
  · intro e he
    rw [hdef] at he
    obtain ⟨s, hs_take, rfl⟩ := List.mem_map.mp he
    have hs_sorted := (List.take_sublist limit _).subset hs_take
    have hs_mapped :=
      (List.perm_insertionSort countDescStat _).mem_iff.mp hs_sorted
    rw [hmapped] at hs_mapped
    obtain ⟨r, hrD, rfl⟩ := List.mem_map.mp hs_mapped
    refine ⟨rfl, ?_⟩
    show roundTo1 ((commits.countP (fun c => decide (c.repo = r)) : ℚ) /
        (commits.length : ℚ) * 100) =
      roundTo1 (100 * (commits.countP (fun c => decide (c.repo = r)) : ℚ) /
        (commits.length : ℚ))
    congr 1
    ring
  · rw [hdef]
    refine List.pairwise_map.mpr ?_
    exact List.Pairwise.sublist (List.take_sublist _ _) hstable

/-- Witness for `getTopRepositories_spec`: four commits over three
repositories, with a count tie between "u/b" and "u/c". -/
theorem getTopRepositories_spec_witness :
    (([⟨"1", "m", 0, "u/a"⟩, ⟨"2", "m", 0, "u/b"⟩, ⟨"3", "m", 0, "u/a"⟩,
       ⟨"4", "m", 0, "u/c"⟩] : List Commit) ≠ [])
    ∧ ((getTopRepositories
          [⟨"1", "m", 0, "u/a"⟩, ⟨"2", "m", 0, "u/b"⟩, ⟨"3", "m", 0, "u/a"⟩,
           ⟨"4", "m", 0, "u/c"⟩] 5).length ≤ 5
      ∧ List.Pairwise (fun a b : RepoStat => b.count ≤ a.count)
          (getTopRepositories
            [⟨"1", "m", 0, "u/a"⟩, ⟨"2", "m", 0, "u/b"⟩, ⟨"3", "m", 0, "u/a"⟩,
             ⟨"4", "m", 0, "u/c"⟩] 5)
      ∧ (∀ e ∈ getTopRepositories
            [⟨"1", "m", 0, "u/a"⟩, ⟨"2", "m", 0, "u/b"⟩, ⟨"3", "m", 0, "u/a"⟩,
             ⟨"4", "m", 0, "u/c"⟩] 5,
          e.count = ([⟨"1", "m", 0, "u/a"⟩, ⟨"2", "m", 0, "u/b"⟩,
              ⟨"3", "m", 0, "u/a"⟩, ⟨"4", "m", 0, "u/c"⟩] :
                List Commit).countP (fun c => decide (c.repo = e.repo))
          ∧ e.percentage = roundTo1 (100 * (e.count : ℚ) /
              (([⟨"1", "m", 0, "u/a"⟩, ⟨"2", "m", 0, "u/b"⟩,
                 ⟨"3", "m", 0, "u/a"⟩, ⟨"4", "m", 0, "u/c"⟩] :
                   List Commit).length : ℚ)))
      ∧ List.Pairwise
          (fun a b : RepoStat => a.count = b.count →
            (([⟨"1", "m", 0, "u/a"⟩, ⟨"2", "m", 0, "u/b"⟩,
               ⟨"3", "m", 0, "u/a"⟩, ⟨"4", "m", 0, "u/c"⟩] :
                 List Commit).map Commit.repo).indexOf a.repo <
              (([⟨"1", "m", 0, "u/a"⟩, ⟨"2", "m", 0, "u/b"⟩,
                 ⟨"3", "m", 0, "u/a"⟩, ⟨"4", "m", 0, "u/c"⟩] :
                   List Commit).map Commit.repo).indexOf b.repo)
          (getTopRepositories
            [⟨"1", "m", 0, "u/a"⟩, ⟨"2", "m", 0, "u/b"⟩, ⟨"3", "m", 0, "u/a"⟩,
             ⟨"4", "m", 0, "u/c"⟩] 5)) :=
  ⟨by decide,
    getTopRepositories_spec
      [⟨"1", "m", 0, "u/a"⟩, ⟨"2", "m", 0, "u/b"⟩, ⟨"3", "m", 0, "u/a"⟩,
       ⟨"4", "m", 0, "u/c"⟩] 5 (by decide)⟩
